import Mathlib

set_option maxRecDepth 100000

/-!
Verification of the text patcher in `tmp_update_index.py`.

The script reads one file, applies three literal substring removals
(`str.replace(pattern, "")` with each pattern a full line followed by a
newline), writes the result back and prints a confirmation line.

File contents are modelled as `List Char`.  Python's `str.replace(old, "")`
with a non-empty `old` removes the leftmost occurrence and every following
non-overlapping occurrence in a single left-to-right scan; `removeAll`
below implements exactly that scan (via an explicit fuel argument so that
it is structurally recursive and kernel-reducible).
-/

/-- The literal pattern of line 6 of the script:
`import { startSepoliaWatcher } from './sepoliaWatcher.js'` plus newline. -/
def pat1 : List Char :=
  ("import \x7b startSepoliaWatcher \x7d from \x27./sepoliaWatcher.js\x27\n").data

/-- The literal pattern of line 7 of the script. -/
def pat2 : List Char :=
  ("  const stopSepoliaWatcher = startSepoliaWatcher(ctx, store)\n").data

/-- The literal pattern of line 8 of the script. -/
def pat3 : List Char :=
  ("    stopSepoliaWatcher()\n").data

/-- The three pattern texts without their trailing newline. -/
def line1 : List Char :=
  ("import \x7b startSepoliaWatcher \x7d from \x27./sepoliaWatcher.js\x27").data

def line2 : List Char :=
  ("  const stopSepoliaWatcher = startSepoliaWatcher(ctx, store)").data

def line3 : List Char :=
  ("    stopSepoliaWatcher()").data

/-- One left-to-right scan removing non-overlapping occurrences of `pat`,
with explicit fuel (one unit per character examined). -/
def removeAllAux (pat : List Char) : Nat → List Char → List Char
  | 0, s => s
  | _ + 1, [] => []
  | fuel + 1, c :: rest =>
    if pat ≠ [] ∧ pat.isPrefixOf (c :: rest) then
      removeAllAux pat fuel (rest.drop (pat.length - 1))
    else
      c :: removeAllAux pat fuel rest

/-- Python's `s.replace(pat, "")` for a list-of-characters string `s`. -/
def removeAll (pat s : List Char) : List Char :=
  removeAllAux pat s.length s

/-- The in-memory transform of the script: lines 6, 7, 8 in order. -/
def patchText (s : List Char) : List Char :=
  removeAll pat3 (removeAll pat2 (removeAll pat1 s))

/-- The confirmation line printed on line 11 of the script. -/
def stdoutMsg : List Char := ("updated index.ts").data

/-- The observable result of a successful run: the new file content and the
list of lines written to standard output. -/
def runScript (content : List Char) : List Char × List (List Char) :=
  (patchText content, [stdoutMsg])

theorem removeAllAux_congr (pat : List Char) :
    ∀ (f1 f2 : Nat) (s : List Char), s.length ≤ f1 → s.length ≤ f2 →
      removeAllAux pat f1 s = removeAllAux pat f2 s := by
  intro f1
  induction f1 with
  | zero =>
    intro f2 s h1 _
    have hs : s = [] := List.eq_nil_of_length_eq_zero (Nat.le_zero.mp h1)
    subst hs
    cases f2 <;> rfl
  | succ f ih =>
    intro f2 s h1 h2
    cases s with
    | nil => cases f2 <;> rfl
    | cons c rest =>
      cases f2 with
      | zero => simp at h2
      | succ f2' =>
        simp only [List.length_cons, Nat.add_le_add_iff_right] at h1 h2
        simp only [removeAllAux]
        split
        · apply ih
          · simp only [List.length_drop]
            omega
          · simp only [List.length_drop]
            omega
        · exact congrArg (c :: ·) (ih f2' rest h1 h2)

theorem removeAll_nil (pat : List Char) : removeAll pat [] = [] := rfl

theorem removeAll_cons (pat : List Char) (c : Char) (rest : List Char) :
    removeAll pat (c :: rest) =
      if pat ≠ [] ∧ pat.isPrefixOf (c :: rest) then
        removeAll pat (rest.drop (pat.length - 1))
      else c :: removeAll pat rest := by
  show removeAllAux pat (rest.length + 1) (c :: rest) = _
  simp only [removeAllAux]
  split
  · exact removeAllAux_congr pat rest.length (rest.drop (pat.length - 1)).length _
      (by simp only [List.length_drop]; omega) (Nat.le_refl _)
  · rfl

theorem isPrefixOf_eq {p s : List Char} : p.isPrefixOf s = true ↔ p <+: s :=
  List.isPrefixOf_iff_prefix

theorem occ_of_pref {p s : List Char} (h : p <+: s) : p <:+: s := by
  obtain ⟨t, ht⟩ := h
  exact ⟨[], t, by simpa using ht⟩

theorem occ_cons_cases {p : List Char} {c : Char} {rest : List Char}
    (h : p <:+: c :: rest) : p <+: c :: rest ∨ p <:+: rest := by
  obtain ⟨A, B, hAB⟩ := h
  cases A with
  | nil => exact Or.inl ⟨B, by simpa using hAB⟩
  | cons a A2 =>
    right
    rw [List.cons_append, List.cons_append] at hAB
    injection hAB with h1 h2
    exact ⟨A2, B, h2⟩

theorem occ_cons {p : List Char} {c : Char} {rest : List Char}
    (h : p <:+: rest) : p <:+: c :: rest :=
  List.infix_cons h

/-- If the pattern does not occur in `s`, `removeAll` leaves `s` unchanged. -/
theorem removeAll_of_not_occ {pat s : List Char}
    (h : ¬ pat <:+: s) : removeAll pat s = s := by
  induction s with
  | nil => rfl
  | cons c rest ih =>
    rw [removeAll_cons]
    have hnp : ¬ (pat ≠ [] ∧ pat.isPrefixOf (c :: rest)) := by
      rintro ⟨-, hp⟩
      exact h (occ_of_pref (isPrefixOf_eq.mp hp))
    rw [if_neg hnp]
    have : ¬ pat <:+: rest := fun hr => h (occ_cons hr)
    rw [ih this]

/-- A match at the very front is consumed whole. -/
theorem removeAll_eat {pat : List Char} (hne : pat ≠ []) (B : List Char) :
    removeAll pat (pat ++ B) = removeAll pat B := by
  cases pat with
  | nil => exact absurd rfl hne
  | cons p ps =>
    rw [List.cons_append, removeAll_cons]
    have hpre : (p :: ps).isPrefixOf (p :: (ps ++ B)) = true :=
      isPrefixOf_eq.mpr ⟨B, by simp⟩
    rw [if_pos ⟨hne, hpre⟩]
    have hlen : (p :: ps).length - 1 = ps.length := by simp
    rw [hlen, List.drop_left]

theorem removeAllAux_sublist (pat : List Char) :
    ∀ (fuel : Nat) (s : List Char), List.Sublist (removeAllAux pat fuel s) s := by
  intro fuel
  induction fuel with
  | zero => intro s; exact List.Sublist.refl s
  | succ f ih =>
    intro s
    cases s with
    | nil => exact List.Sublist.refl []
    | cons c rest =>
      simp only [removeAllAux]
      split
      · exact ((ih _).trans (List.drop_sublist _ rest)).trans
          (List.sublist_cons_self c rest)
      · exact List.Sublist.cons₂ c (ih rest)

/-- The function removeAll only deletes characters: its output is a sublist of the input. -/
theorem removeAll_sublist (pat s : List Char) :
    List.Sublist (removeAll pat s) s :=
  removeAllAux_sublist pat s.length s

theorem removeAll_length_le (pat s : List Char) :
    (removeAll pat s).length ≤ s.length :=
  (removeAll_sublist pat s).length_le

/-- If the pattern does occur, `removeAll` strictly shrinks the string. -/
theorem removeAll_length_lt {pat s : List Char}
    (hne : pat ≠ []) (h : pat <:+: s) : (removeAll pat s).length < s.length := by
  induction s with
  | nil =>
    exact absurd (List.eq_nil_of_infix_nil h) hne
  | cons c rest ih =>
    rw [removeAll_cons]
    split
    · calc (removeAll pat (rest.drop (pat.length - 1))).length
          ≤ (rest.drop (pat.length - 1)).length := removeAll_length_le _ _
        _ ≤ rest.length := by simp [List.length_drop]
        _ < (c :: rest).length := by simp
    · rename_i hneg
      rcases occ_cons_cases h with hpre | hocc
      · exact absurd ⟨hne, isPrefixOf_eq.mpr hpre⟩ hneg
      · simpa using Nat.add_lt_add_right (ih hocc) 1

/-- The pattern occurs in `s` iff `removeAll` changes `s`. -/
theorem occ_iff_removeAll_ne {pat s : List Char} (hne : pat ≠ []) :
    pat <:+: s ↔ removeAll pat s ≠ s := by
  constructor
  · intro h heq
    have := removeAll_length_lt hne h
    rw [heq] at this
    exact Nat.lt_irrefl _ this
  · intro h
    by_contra hno
    exact h (removeAll_of_not_occ hno)

/-- Two decompositions `text ++ newline ++ tail` of the same string, with
newline-free `text` parts, coincide. -/
theorem nl_split {pl L t T : List Char} (hpl : '\n' ∉ pl) (hL : '\n' ∉ L)
    (h : pl ++ '\n' :: t = L ++ '\n' :: T) : pl = L ∧ t = T := by
  induction pl generalizing L with
  | nil =>
    cases L with
    | nil => simpa using h
    | cons c L2 =>
      exfalso
      rw [List.nil_append, List.cons_append] at h
      injection h with h1 h2
      subst h1
      exact hL (List.mem_cons_self _ _)
  | cons a pl2 ih =>
    cases L with
    | nil =>
      exfalso
      rw [List.cons_append, List.nil_append] at h
      injection h with h1 h2
      subst h1
      exact hpl (List.mem_cons_self _ _)
    | cons c L2 =>
      rw [List.cons_append, List.cons_append] at h
      injection h with h1 h2
      have hpl2 : '\n' ∉ pl2 := fun hm => hpl (List.mem_cons_of_mem a hm)
      have hL2 : '\n' ∉ L2 := fun hm => hL (List.mem_cons_of_mem c hm)
      obtain ⟨e1, e2⟩ := ih hpl2 hL2 h2
      exact ⟨by rw [h1, e1], e2⟩

/-- Scanning over a complete line that does not end in the pattern text
leaves the line intact. -/
theorem removeAll_skip_line {pl l : List Char} (T : List Char)
    (hpl : '\n' ∉ pl) (hl : '\n' ∉ l) (hns : ¬ pl <:+ l) :
    removeAll (pl ++ ['\n']) (l ++ '\n' :: T) =
      l ++ '\n' :: removeAll (pl ++ ['\n']) T := by
  induction l with
  | nil =>
    have hple : pl ≠ [] := by
      intro h
      rw [h] at hns
      exact hns List.nil_suffix
    rw [List.nil_append, List.nil_append, removeAll_cons]
    have hnpre : ¬ ((pl ++ ['\n']) ≠ [] ∧ (pl ++ ['\n']).isPrefixOf ('\n' :: T)) := by
      rintro ⟨-, hp⟩
      obtain ⟨t, ht⟩ := isPrefixOf_eq.mp hp
      cases pl with
      | nil => exact hple rfl
      | cons q ql =>
        rw [List.cons_append, List.cons_append] at ht
        injection ht with h1 h2
        subst h1
        exact hpl (List.mem_cons_self _ _)
    rw [if_neg hnpre]
  | cons c l2 ih =>
    show removeAll (pl ++ ['\n']) (c :: (l2 ++ '\n' :: T)) =
      c :: (l2 ++ '\n' :: removeAll (pl ++ ['\n']) T)
    rw [removeAll_cons]
    have hnpre : ¬ ((pl ++ ['\n']) ≠ [] ∧
        (pl ++ ['\n']).isPrefixOf (c :: (l2 ++ '\n' :: T))) := by
      rintro ⟨-, hp⟩
      obtain ⟨t, ht⟩ := isPrefixOf_eq.mp hp
      rw [List.append_assoc, List.singleton_append] at ht
      have hcl : c :: (l2 ++ '\n' :: T) = (c :: l2) ++ '\n' :: T := by
        rw [List.cons_append]
      rw [hcl] at ht
      obtain ⟨e1, -⟩ := nl_split hpl hl ht
      exact hns (by rw [e1])
    rw [if_neg hnpre]
    have hl2 : '\n' ∉ l2 := fun hm => hl (List.mem_cons_of_mem c hm)
    have hns2 : ¬ pl <:+ l2 := fun hs => hns (hs.trans (List.suffix_cons c l2))
    rw [ih hl2 hns2]

/-- Join a list of (newline-free) lines, terminating each with a newline. -/
def unlines : List (List Char) → List Char
  | [] => []
  | l :: L => l ++ '\n' :: unlines L

/-- Removing a full-line pattern from line-structured content filters out
exactly the lines equal to the pattern text, provided the pattern text only
ever appears as a whole line. -/
theorem removeAll_unlines {pl : List Char} (hpl : '\n' ∉ pl) :
    ∀ {L : List (List Char)}, (∀ l ∈ L, '\n' ∉ l) → (∀ l ∈ L, pl <:+ l → l = pl) →
      removeAll (pl ++ ['\n']) (unlines L) =
        unlines (L.filter (fun l => !(l == pl))) := by
  intro L
  induction L with
  | nil => intro _ _; rfl
  | cons l L2 ih =>
    intro hnf hal
    have hnf2 : ∀ x ∈ L2, '\n' ∉ x := fun x hx => hnf x (List.mem_cons_of_mem l hx)
    have hal2 : ∀ x ∈ L2, pl <:+ x → x = pl :=
      fun x hx => hal x (List.mem_cons_of_mem l hx)
    by_cases he : l = pl
    · rw [he]
      show removeAll (pl ++ ['\n']) (pl ++ '\n' :: unlines L2) = _
      have hgl : pl ++ '\n' :: unlines L2 = (pl ++ ['\n']) ++ unlines L2 := by
        rw [List.append_assoc, List.singleton_append]
      rw [hgl, removeAll_eat (by simp), ih hnf2 hal2]
      congr 1
      simp [List.filter_cons]
    · have hns : ¬ pl <:+ l := fun hs => he (hal l (List.mem_cons_self l L2) hs)
      show removeAll (pl ++ ['\n']) (l ++ '\n' :: unlines L2) = _
      rw [removeAll_skip_line (unlines L2) hpl (hnf l (List.mem_cons_self l L2)) hns,
        ih hnf2 hal2]
      have hfl : (l :: L2).filter (fun x => !(x == pl)) =
          l :: L2.filter (fun x => !(x == pl)) := by
        simp [List.filter_cons, he]
      rw [hfl]
      rfl

/-- If no line ends in the pattern text, the full-line pattern does not occur
anywhere in the joined content. -/
theorem not_occ_unlines {pl : List Char} (hpl : '\n' ∉ pl)
    {L : List (List Char)} (hnf : ∀ l ∈ L, '\n' ∉ l)
    (hno : ∀ l ∈ L, ¬ pl <:+ l) :
    ¬ (pl ++ ['\n']) <:+: unlines L := by
  have hal : ∀ l ∈ L, pl <:+ l → l = pl := fun l hl hs => absurd hs (hno l hl)
  have hfix : removeAll (pl ++ ['\n']) (unlines L) = unlines L := by
    rw [removeAll_unlines hpl hnf hal]
    congr 1
    rw [List.filter_eq_self]
    intro a ha
    have hane : a ≠ pl := by
      intro he
      exact hno a ha (by rw [he])
    simpa using hane
  intro hocc
  have hlt := removeAll_length_lt (by simp) hocc
  rw [hfix] at hlt
  exact Nat.lt_irrefl _ hlt

/-- Number of positions of `s` at which `pat` starts (counting overlaps). -/
def occCount (pat : List Char) : List Char → Nat
  | [] => 0
  | c :: rest => (if pat.isPrefixOf (c :: rest) then 1 else 0) + occCount pat rest

/-- Inside one newline-terminated line, a full-line pattern starts at exactly
one position if the pattern text is a suffix of the line, else nowhere. -/
theorem occCount_line {pl l : List Char} (T : List Char)
    (hpl : '\n' ∉ pl) (hl : '\n' ∉ l) :
    occCount (pl ++ ['\n']) (l ++ '\n' :: T) =
      (if pl <:+ l then 1 else 0) + occCount (pl ++ ['\n']) T := by
  induction l with
  | nil =>
    rw [List.nil_append]
    show (if (pl ++ ['\n']).isPrefixOf ('\n' :: T) then 1 else 0)
        + occCount (pl ++ ['\n']) T = _
    cases pl with
    | nil => simp [List.isPrefixOf]
    | cons q ql =>
      have hq : ¬ ((q :: ql ++ ['\n']).isPrefixOf ('\n' :: T) = true) := by
        intro hp
        obtain ⟨t, ht⟩ := isPrefixOf_eq.mp hp
        rw [List.cons_append, List.cons_append] at ht
        injection ht with h1 h2
        subst h1
        exact hpl (List.mem_cons_self _ _)
      have hs : ¬ (q :: ql) <:+ ([] : List Char) := by
        intro hsx
        obtain ⟨t, ht⟩ := hsx
        exact absurd (List.append_eq_nil.mp ht).2 (by simp)
      rw [if_neg hq, if_neg hs]
  | cons c l2 ih =>
    show (if (pl ++ ['\n']).isPrefixOf (c :: (l2 ++ '\n' :: T)) then 1 else 0)
        + occCount (pl ++ ['\n']) (l2 ++ '\n' :: T) = _
    have hl2 : '\n' ∉ l2 := fun hm => hl (List.mem_cons_of_mem c hm)
    rw [ih hl2]
    have hiff : (pl ++ ['\n']).isPrefixOf (c :: (l2 ++ '\n' :: T)) = true ↔
        pl = c :: l2 := by
      constructor
      · intro hp
        obtain ⟨t, ht⟩ := isPrefixOf_eq.mp hp
        rw [List.append_assoc, List.singleton_append] at ht
        have hcl : c :: (l2 ++ '\n' :: T) = (c :: l2) ++ '\n' :: T := by
          rw [List.cons_append]
        rw [hcl] at ht
        exact (nl_split hpl hl ht).1
      · intro he
        apply isPrefixOf_eq.mpr
        refine ⟨T, ?_⟩
        rw [he, List.append_assoc, List.singleton_append, List.cons_append]
    by_cases hp : pl = c :: l2
    · have hs2 : ¬ pl <:+ l2 := by
        rw [hp]
        intro hsx
        have := hsx.length_le
        simp at this
      rw [if_pos (hiff.mpr hp), if_neg hs2, if_pos (show pl <:+ c :: l2 by rw [hp])]
      omega
    · rw [if_neg (fun h => hp (hiff.mp h))]
      by_cases hs : pl <:+ l2
      · rw [if_pos hs, if_pos (hs.trans (List.suffix_cons c l2))]
        omega
      · have hnc : ¬ pl <:+ c :: l2 := by
          rw [List.suffix_cons_iff]
          rintro (h | h)
          · exact hp h
          · exact hs h
        rw [if_neg hs, if_neg hnc]
        omega

/-- Occurrences of a full-line pattern in joined lines are exactly the lines
ending in the pattern text. -/
theorem occCount_unlines {pl : List Char} (hpl : '\n' ∉ pl) :
    ∀ {L : List (List Char)}, (∀ l ∈ L, '\n' ∉ l) →
      occCount (pl ++ ['\n']) (unlines L) =
        L.countP (fun l => decide (pl <:+ l)) := by
  intro L
  induction L with
  | nil => intro _; rfl
  | cons l L2 ih =>
    intro hnf
    show occCount (pl ++ ['\n']) (l ++ '\n' :: unlines L2) = _
    rw [occCount_line (unlines L2) hpl (hnf l (List.mem_cons_self l L2)),
      ih (fun x hx => hnf x (List.mem_cons_of_mem l hx)), List.countP_cons]
    by_cases hs : pl <:+ l
    · rw [if_pos hs, if_pos (by simpa using hs)]
      omega
    · rw [if_neg hs, if_neg (by simpa using hs)]
      omega

/-- Removing one full-line pattern does not change the number of occurrences
of a different full-line pattern, for line-aligned content. -/
theorem occCount_removeAll_other {pl ql : List Char} (hne : ql ≠ pl)
    (hpl : '\n' ∉ pl) (hql : '\n' ∉ ql)
    {L : List (List Char)} (hnf : ∀ l ∈ L, '\n' ∉ l)
    (hal : ∀ l ∈ L, pl <:+ l → l = pl) (hal2 : ∀ l ∈ L, ql <:+ l → l = ql) :
    occCount (ql ++ ['\n']) (removeAll (pl ++ ['\n']) (unlines L)) =
      occCount (ql ++ ['\n']) (unlines L) := by
  rw [removeAll_unlines hpl hnf hal]
  have hnf2 : ∀ l ∈ L.filter (fun x => !(x == pl)), '\n' ∉ l := fun l hl =>
    hnf l (List.mem_filter.mp hl).1
  rw [occCount_unlines hql hnf2, occCount_unlines hql hnf, List.countP_filter]
  apply List.countP_congr
  intro x hx
  by_cases hsx : ql <:+ x
  · have hxq : x = ql := hal2 x hx hsx
    have hxp : (x == pl) = false := by
      rw [hxq]
      simpa using hne
    simp [hsx, hxp]
  · simp [hsx]

/-- The scan removes an occurrence as soon as no occurrence starts earlier:
if no occurrence of `pat` starts inside `A` (even one reaching into the
following text), the first removal is exactly at the seam. -/
theorem removeAll_first_occ {pat : List Char} (hne : pat ≠ []) :
    ∀ (A B : List Char), ¬ pat <:+: (A ++ pat.dropLast) →
      removeAll pat (A ++ pat ++ B) = A ++ removeAll pat B := by
  intro A
  induction A with
  | nil =>
    intro B _
    rw [List.nil_append, removeAll_eat hne, List.nil_append]
  | cons a A2 ih =>
    intro B hno
    have hno2 : ¬ pat <:+: (A2 ++ pat.dropLast) := by
      intro h
      apply hno
      rw [List.cons_append]
      exact occ_cons h
    show removeAll pat (a :: (A2 ++ pat ++ B)) = a :: (A2 ++ removeAll pat B)
    rw [removeAll_cons]
    have hlast := List.dropLast_append_getLast hne
    have hnpre : ¬ (pat ≠ [] ∧ pat.isPrefixOf (a :: (A2 ++ pat ++ B))) := by
      rintro ⟨-, hp⟩
      have hp2 : pat <+: a :: (A2 ++ pat ++ B) := isPrefixOf_eq.mp hp
      have hP : ((a :: A2) ++ pat.dropLast) <+: a :: (A2 ++ pat ++ B) := by
        refine ⟨pat.getLast hne :: B, ?_⟩
        show a :: (A2 ++ pat.dropLast ++ (pat.getLast hne :: B)) = _
        rw [List.append_assoc]
        have hx : pat.dropLast ++ (pat.getLast hne :: B) = pat ++ B := by
          rw [← List.singleton_append, ← List.append_assoc, hlast]
        rw [hx, List.append_assoc]
      have hlen : pat.length ≤ ((a :: A2) ++ pat.dropLast).length := by
        have hpos : 0 < pat.length := List.length_pos.mpr hne
        simp only [List.length_append, List.length_cons, List.length_dropLast]
        omega
      have := List.prefix_of_prefix_length_le hp2 hP hlen
      exact hno (occ_of_pref this)
    rw [if_neg hnpre, ih B hno2]

/-- Events of one run, in program order. -/
inductive Ev where
  | readF : Ev
  | writeF : List Char → Ev
  | printLn : List Char → Ev

def Ev.isPrintLn : Ev → Bool
  | Ev.printLn _ => true
  | _ => false

/-- The run as an event trace: the read on line 4, the write on line 10 and
the print on line 11 of the script. -/
def runEvents (content : List Char) : List Ev :=
  [Ev.readF, Ev.writeF (patchText content), Ev.printLn stdoutMsg]

/-- State of the hard-coded path: `none` when the file is absent or cannot
be read; `writable` says whether it can be overwritten. -/
structure World where
  content : Option (List Char)
  writable : Bool

/-- The run with I/O failure propagation: final state, stdout lines, and
whether the run terminated normally (`false` means the filesystem error
escaped unhandled). -/
def runScriptIO (w : World) : World × List (List Char) × Bool :=
  match w.content with
  | none => (w, [], false)
  | some c =>
    if w.writable then (World.mk (some (patchText c)) w.writable, [stdoutMsg], true)
    else (w, [], false)

/-- The run as a function of everything a process can observe: file content,
command-line arguments and environment.  The script consults neither
`sys.argv` nor `os.environ`, so the result is built from the content alone. -/
def runFull (content : List Char) (_argv : List (List Char))
    (_env : List (List Char × List Char)) : List Char × List (List Char) :=
  runScript content

/-- The six-line input of the concrete scenario in the spec. -/
def input6 : List Char :=
  ("import \x7b startSepoliaWatcher \x7d from \x27./sepoliaWatcher.js\x27\nfunction main() \x7b\n  const stopSepoliaWatcher = startSepoliaWatcher(ctx, store)\n  doWork()\n    stopSepoliaWatcher()\n\x7d\n").data

/-- The expected three-line output of the concrete scenario. -/
def output3 : List Char := ("function main() \x7b\n  doWork()\n\x7d\n").data

def lineMain : List Char := ("function main() \x7b").data

def lineWork : List Char := ("  doWork()").data

def lineBrace : List Char := ("\x7d").data

/-- The concrete scenario input as a list of lines. -/
def sixLines : List (List Char) := [line1, lineMain, line2, lineWork, line3, lineBrace]

/-- A content on which the first removal creates a fresh occurrence of
`pat1`: the seam of the removed occurrence joins two fragments of the
pattern into a new copy. -/
def cexSeed : List Char :=
  ("import \x7b startSepoliaWatcher \x7d from \x27./sepolia").data
    ++ pat1 ++ ("Watcher.js\x27\n").data

/-- The content cexSeed extended so that every pattern occurs exactly once. -/
def cexThree : List Char := cexSeed ++ pat2 ++ pat3

/-- A content where removing `pat2` creates an occurrence of `pat3`. -/
def cexCross : List Char :=
  ("    stopSepoliaWatcher(").data ++ pat2 ++ (")\n").data

/-- The no-match concrete scenario of the spec. -/
def noMatchContent : List Char := ("function main() \x7b doWork() \x7d").data

theorem pat1_eq : pat1 = line1 ++ ['\n'] := by decide

theorem pat2_eq : pat2 = line2 ++ ['\n'] := by decide

theorem pat3_eq : pat3 = line3 ++ ['\n'] := by decide

/-- Claim C1: the patch applies exactly the three literal removals in the
fixed order pat1, pat2, pat3; each step removes occurrences of its pattern
(a line followed by a newline), consuming a leftmost occurrence at its
position; when the pattern is absent the step leaves the content unchanged,
and the operation is total (never fails). -/
theorem claim1_patch_steps (s : List Char) :
    patchText s = removeAll pat3 (removeAll pat2 (removeAll pat1 s))
    ∧ (∀ p, p = pat1 ∨ p = pat2 ∨ p = pat3 → ¬ p <:+: s → removeAll p s = s)
    ∧ (∀ p A B, p = pat1 ∨ p = pat2 ∨ p = pat3 →
        ¬ p <:+: (A ++ p.dropLast) →
        removeAll p (A ++ p ++ B) = A ++ removeAll p B) := by
  refine ⟨rfl, ?_, ?_⟩
  · intro p _ hno
    exact removeAll_of_not_occ hno
  · intro p A B hp hno
    have hne : p ≠ [] := by
      rcases hp with h | h | h <;> rw [h] <;> decide
    exact removeAll_first_occ hne A B hno

theorem claim1_witness :
    removeAll pat1 noMatchContent = noMatchContent :=
  (claim1_patch_steps noMatchContent).2.1 pat1 (Or.inl rfl) (by decide)

/-- Claim C2 counterexample: on `cexSeed` the first removal creates a fresh
occurrence of `pat1`, so a second run of the patch removes more text and
`patch (patch C) = patch C` fails. -/
theorem claim2_cex :
    patchText (patchText cexSeed) ≠ patchText cexSeed := by decide

/-- Claim C2 amended: the patch is idempotent on every content whose patched
output contains none of the three patterns (in particular whenever the
removals create no new occurrence); in general a second run can remove
newly-formed occurrences. -/
theorem claim2_idem_amended (s : List Char)
    (h1 : ¬ pat1 <:+: patchText s) (h2 : ¬ pat2 <:+: patchText s)
    (h3 : ¬ pat3 <:+: patchText s) :
    patchText (patchText s) = patchText s := by
  show removeAll pat3 (removeAll pat2 (removeAll pat1 (patchText s))) = patchText s
  rw [removeAll_of_not_occ h1, removeAll_of_not_occ h2, removeAll_of_not_occ h3]

theorem claim2_witness :
    patchText (patchText input6) = patchText input6 :=
  claim2_idem_amended input6 (by decide) (by decide) (by decide)

/-- Claim C3 counterexample: `cexThree` contains each of the three patterns
exactly once, yet the patched output still contains an occurrence of `pat1`
(created at the seam of the first removal). -/
theorem claim3_cex :
    (occCount pat1 cexThree = 1 ∧ occCount pat2 cexThree = 1 ∧
      occCount pat3 cexThree = 1)
    ∧ occCount pat1 (patchText cexThree) ≠ 0 := by decide

/-- Claim C3 amended: for content made of newline-free lines in which each
pattern line occurs exactly once and only ever as a whole line (no line
merely ends in a pattern line), the patch removes exactly the pattern
lines: the output is the remaining lines in original order and content, and
no pattern occurs in it.  Without the whole-line proviso the claim fails
(see the counterexample). -/
theorem claim3_selective_amended (L : List (List Char))
    (hnf : ∀ l ∈ L, '\n' ∉ l)
    (ha1 : ∀ l ∈ L, line1 <:+ l → l = line1)
    (ha2 : ∀ l ∈ L, line2 <:+ l → l = line2)
    (ha3 : ∀ l ∈ L, line3 <:+ l → l = line3)
    (_hc1 : L.count line1 = 1) (_hc2 : L.count line2 = 1)
    (_hc3 : L.count line3 = 1) :
    patchText (unlines L) =
      unlines (L.filter (fun l => !(l == line1) && !(l == line2) && !(l == line3)))
    ∧ ¬ pat1 <:+: patchText (unlines L)
    ∧ ¬ pat2 <:+: patchText (unlines L)
    ∧ ¬ pat3 <:+: patchText (unlines L) := by
  have hnf1 : ∀ l ∈ L.filter (fun x => !(x == line1)), '\n' ∉ l :=
    fun l hl => hnf l (List.mem_filter.mp hl).1
  have ha2f : ∀ l ∈ L.filter (fun x => !(x == line1)), line2 <:+ l → l = line2 :=
    fun l hl => ha2 l (List.mem_filter.mp hl).1
  have hnf2 : ∀ l ∈ (L.filter (fun x => !(x == line1))).filter
      (fun x => !(x == line2)), '\n' ∉ l :=
    fun l hl => hnf1 l (List.mem_filter.mp hl).1
  have ha3f : ∀ l ∈ (L.filter (fun x => !(x == line1))).filter
      (fun x => !(x == line2)), line3 <:+ l → l = line3 :=
    fun l hl => ha3 l (List.mem_filter.mp (List.mem_filter.mp hl).1).1
  have hstep : patchText (unlines L) =
      unlines (((L.filter (fun x => !(x == line1))).filter
        (fun x => !(x == line2))).filter (fun x => !(x == line3))) := by
    show removeAll pat3 (removeAll pat2 (removeAll pat1 (unlines L))) = _
    rw [pat1_eq, pat2_eq, pat3_eq,
      removeAll_unlines (by decide) hnf ha1,
      removeAll_unlines (by decide) hnf1 ha2f,
      removeAll_unlines (by decide) hnf2 ha3f]
  have hmerge : ((L.filter (fun x => !(x == line1))).filter
        (fun x => !(x == line2))).filter (fun x => !(x == line3)) =
      L.filter (fun l => !(l == line1) && !(l == line2) && !(l == line3)) := by
    rw [List.filter_filter, List.filter_filter]
    apply List.filter_congr
    intro a _
    cases h1 : (a == line1) <;> cases h2 : (a == line2) <;>
      cases h3 : (a == line3) <;> simp [h1, h2, h3]
  have hout : patchText (unlines L) =
      unlines (L.filter (fun l => !(l == line1) && !(l == line2) && !(l == line3))) := by
    rw [hstep, hmerge]
  have hmem : ∀ l ∈ L.filter
      (fun l => !(l == line1) && !(l == line2) && !(l == line3)),
      l ∈ L ∧ l ≠ line1 ∧ l ≠ line2 ∧ l ≠ line3 := by
    intro l hl
    have hm := List.mem_filter.mp hl
    have hb := hm.2
    simp only [Bool.and_eq_true, Bool.not_eq_true', beq_eq_false_iff_ne] at hb
    exact ⟨hm.1, hb.1.1, hb.1.2, hb.2⟩
  have hno1 : ¬ pat1 <:+: patchText (unlines L) := by
    rw [hout, pat1_eq]
    apply not_occ_unlines (by decide)
    · intro l hl
      exact hnf l (hmem l hl).1
    · intro l hl hs
      exact (hmem l hl).2.1 (ha1 l (hmem l hl).1 hs)
  have hno2 : ¬ pat2 <:+: patchText (unlines L) := by
    rw [hout, pat2_eq]
    apply not_occ_unlines (by decide)
    · intro l hl
      exact hnf l (hmem l hl).1
    · intro l hl hs
      exact (hmem l hl).2.2.1 (ha2 l (hmem l hl).1 hs)
  have hno3 : ¬ pat3 <:+: patchText (unlines L) := by
    rw [hout, pat3_eq]
    apply not_occ_unlines (by decide)
    · intro l hl
      exact hnf l (hmem l hl).1
    · intro l hl hs
      exact (hmem l hl).2.2.2 (ha3 l (hmem l hl).1 hs)
  exact ⟨hout, hno1, hno2, hno3⟩

theorem claim3_witness :
    patchText (unlines sixLines) =
      unlines (sixLines.filter
        (fun l => !(l == line1) && !(l == line2) && !(l == line3)))
    ∧ ¬ pat1 <:+: patchText (unlines sixLines)
    ∧ ¬ pat2 <:+: patchText (unlines sixLines)
    ∧ ¬ pat3 <:+: patchText (unlines sixLines) :=
  claim3_selective_amended sixLines (by decide) (by decide) (by decide)
    (by decide) (by decide) (by decide) (by decide)

/-- Claim C4: on content containing none of the three patterns the patch is
the identity, byte for byte. -/
theorem claim4_noop_on_absence (s : List Char)
    (h1 : ¬ pat1 <:+: s) (h2 : ¬ pat2 <:+: s) (h3 : ¬ pat3 <:+: s) :
    patchText s = s := by
  show removeAll pat3 (removeAll pat2 (removeAll pat1 s)) = s
  rw [removeAll_of_not_occ h1, removeAll_of_not_occ h2, removeAll_of_not_occ h3]

theorem claim4_witness : patchText noMatchContent = noMatchContent :=
  claim4_noop_on_absence noMatchContent (by decide) (by decide) (by decide)

/-- Claim C5 counterexample: `cexCross` contains no occurrence of `pat3`,
but removing `pat2` joins two fragments into a fresh occurrence of `pat3`,
so removing one pattern can change the occurrences of another. -/
theorem claim5_cex :
    occCount pat3 cexCross = 0 ∧ occCount pat3 (removeAll pat2 cexCross) = 1 := by
  decide

/-- Claim C5 amended: for content made of newline-free lines in which each
pattern line only ever appears as a whole line, removing any one of the
three patterns leaves the number of occurrences of each of the other two
unchanged.  Without the whole-line proviso a removal seam can create a new
occurrence of another pattern (see the counterexample). -/
theorem claim5_no_interference_amended (L : List (List Char))
    (hnf : ∀ l ∈ L, '\n' ∉ l)
    (ha1 : ∀ l ∈ L, line1 <:+ l → l = line1)
    (ha2 : ∀ l ∈ L, line2 <:+ l → l = line2)
    (ha3 : ∀ l ∈ L, line3 <:+ l → l = line3) :
    occCount pat2 (removeAll pat1 (unlines L)) = occCount pat2 (unlines L)
    ∧ occCount pat3 (removeAll pat1 (unlines L)) = occCount pat3 (unlines L)
    ∧ occCount pat1 (removeAll pat2 (unlines L)) = occCount pat1 (unlines L)
    ∧ occCount pat3 (removeAll pat2 (unlines L)) = occCount pat3 (unlines L)
    ∧ occCount pat1 (removeAll pat3 (unlines L)) = occCount pat1 (unlines L)
    ∧ occCount pat2 (removeAll pat3 (unlines L)) = occCount pat2 (unlines L) := by
  rw [pat1_eq, pat2_eq, pat3_eq]
  exact ⟨occCount_removeAll_other (by decide) (by decide) (by decide) hnf ha1 ha2,
    occCount_removeAll_other (by decide) (by decide) (by decide) hnf ha1 ha3,
    occCount_removeAll_other (by decide) (by decide) (by decide) hnf ha2 ha1,
    occCount_removeAll_other (by decide) (by decide) (by decide) hnf ha2 ha3,
    occCount_removeAll_other (by decide) (by decide) (by decide) hnf ha3 ha1,
    occCount_removeAll_other (by decide) (by decide) (by decide) hnf ha3 ha2⟩

theorem claim5_witness :
    occCount pat2 (removeAll pat1 (unlines sixLines)) =
      occCount pat2 (unlines sixLines)
    ∧ occCount pat3 (removeAll pat1 (unlines sixLines)) =
      occCount pat3 (unlines sixLines)
    ∧ occCount pat1 (removeAll pat2 (unlines sixLines)) =
      occCount pat1 (unlines sixLines)
    ∧ occCount pat3 (removeAll pat2 (unlines sixLines)) =
      occCount pat3 (unlines sixLines)
    ∧ occCount pat1 (removeAll pat3 (unlines sixLines)) =
      occCount pat1 (unlines sixLines)
    ∧ occCount pat2 (removeAll pat3 (unlines sixLines)) =
      occCount pat2 (unlines sixLines) :=
  claim5_no_interference_amended sixLines (by decide) (by decide) (by decide)
    (by decide)

/-- Claim C6: on the spec's six-line concrete input the run produces exactly
the three-line output and prints `updated index.ts`. -/
theorem claim6_concrete : runScript input6 = (output3, [stdoutMsg]) := by
  decide

/-- Claim C7: on every run exactly one line, the fixed confirmation string,
is written to standard output, and it is emitted only after the write event,
whatever the input content. -/
theorem claim7_stdout (c : List Char) :
    List.filter Ev.isPrintLn (runEvents c) = [Ev.printLn stdoutMsg]
    ∧ ∃ pre, runEvents c = pre ++ [Ev.printLn stdoutMsg]
        ∧ Ev.writeF (patchText c) ∈ pre
        ∧ ∀ e ∈ pre, Ev.isPrintLn e = false := by
  refine ⟨rfl, [Ev.readF, Ev.writeF (patchText c)], rfl, ?_, ?_⟩
  · exact List.mem_cons_of_mem _ (List.mem_cons_self _ _)
  · intro e he
    rcases List.mem_cons.mp he with h | h
    · rw [h]; rfl
    · rcases List.mem_cons.mp h with h2 | h2
      · rw [h2]; rfl
      · cases h2

theorem claim7_witness :
    List.filter Ev.isPrintLn (runEvents input6) = [Ev.printLn stdoutMsg]
    ∧ ∃ pre, runEvents input6 = pre ++ [Ev.printLn stdoutMsg]
        ∧ Ev.writeF (patchText input6) ∈ pre
        ∧ ∀ e ∈ pre, Ev.isPrintLn e = false :=
  claim7_stdout input6

/-- Claim C8: a filesystem failure propagates unhandled; when the read fails
the file is unchanged and nothing is printed; the whole transform happens in
memory, so a successful run performs the single write with the fully
transformed content and only then prints. -/
theorem claim8_errors (w : World) :
    (w.content = none → runScriptIO w = (w, [], false))
    ∧ (∀ c, w.content = some c → w.writable = false →
        runScriptIO w = (w, [], false))
    ∧ (∀ c, w.content = some c → w.writable = true →
        runScriptIO w = (World.mk (some (patchText c)) true, [stdoutMsg], true)) := by
  obtain ⟨oc, wb⟩ := w
  cases oc with
  | none =>
    exact ⟨fun _ => rfl, fun c h _ => Option.noConfusion h,
      fun c h _ => Option.noConfusion h⟩
  | some c0 =>
    cases wb with
    | false =>
      refine ⟨fun h => Option.noConfusion h, fun c _ _ => rfl, ?_⟩
      intro c _ hw
      exact Bool.noConfusion hw
    | true =>
      refine ⟨fun h => Option.noConfusion h, ?_, ?_⟩
      · intro c _ hw
        exact Bool.noConfusion hw
      · intro c h _
        injection h with h2
        rw [← h2]
        rfl

theorem claim8_witness :
    runScriptIO (World.mk none true) = (World.mk none true, [], false) :=
  (claim8_errors (World.mk none true)).1 rfl

/-- Claim C9: the patch only deletes characters: its output is a subsequence
of the input, and in particular never longer. -/
theorem claim9_only_deletes (s : List Char) :
    List.Sublist (patchText s) s ∧ (patchText s).length ≤ s.length := by
  have h : List.Sublist (patchText s) s :=
    ((removeAll_sublist pat3 _).trans (removeAll_sublist pat2 _)).trans
      (removeAll_sublist pat1 s)
  exact ⟨h, h.length_le⟩

/-- Claim C10: the run is deterministic and depends only on the file
content: command-line arguments and the environment never influence the new
content or the standard output. -/
theorem claim10_deterministic (c : List Char)
    (a1 a2 : List (List Char)) (e1 e2 : List (List Char × List Char)) :
    runFull c a1 e1 = runFull c a2 e2
    ∧ runFull c a1 e1 = (patchText c, [stdoutMsg]) :=
  ⟨rfl, rfl⟩
